import Mathlib

/-!
Verification of the Veritas perceptual-hash matching core.

The definitions below are a shallow embedding of the Python source:
  - `src/Veritas/api/main.py` (the "main" revision, threshold 15, byte check)
  - `src/Veritas/projects/Veritas-frontend/api/index.py` (the "index" revision,
    threshold 10, no byte check)

Hashes are 64-bit values modelled as `Nat`; registry snapshots are association
lists in Python-dict insertion order; a probe's geometric variants are modelled
by their names together with the (possibly failing) hash computed for the
transformed probe, `Option Nat` standing for the try/except around each
variant.
-/

namespace Veritas

/-- Hamming distance between two 64-bit hash values: popcount of the XOR,
mirroring `imagehash.ImageHash.__sub__` (count of differing bits). -/
def hammingDistance (a b : Nat) : Nat :=
  (List.range 64).countP (fun i => (a ^^^ b).testBit i)

/-- The running best tracked by `verify_artwork`: `best_distance`,
`best_match_hash`, `best_match_owner`, `best_transform`. -/
structure MatchState where
  bestDistance : Option Nat
  bestHash : Option Nat
  bestOwner : Option String
  bestTransform : String
deriving DecidableEq, Repr

/-- Initial state of the search: `best_distance = None`, `best_match_hash = None`,
`best_match_owner = None`, `best_transform = "Original"`. -/
def initState : MatchState := ⟨none, none, none, "Original"⟩

/-- `best_distance is None or distance < best_distance`. -/
def improves (d : Nat) : Option Nat → Bool
  | none => true
  | some b => decide (d < b)

/-- One registry entry inside the inner loop: update the running best when the
distance strictly improves (first branch of the inner loop body). -/
def stepEntry (name : String) (suspect : Nat) (e : Nat × String) (s : MatchState) : MatchState :=
  if improves (hammingDistance suspect e.1) s.bestDistance then
    { bestDistance := some (hammingDistance suspect e.1)
      bestHash := some e.1
      bestOwner := some e.2
      bestTransform := name }
  else s

/-- The inner `for stored_hash_str, owner in registry.items()` loop, including
the `if best_distance == 0: break` early exit after each update. -/
def innerScan (name : String) (suspect : Nat) : List (Nat × String) → MatchState → MatchState
  | [], s => s
  | e :: rest, s =>
    let s2 := stepEntry name suspect e s
    if s2.bestDistance = some 0 then s2 else innerScan name suspect rest s2

/-- The outer `for transform_name, transform_fn in SYMMETRY_TRANSFORMS` loop.
A variant whose transform or hashing raised is `(name, none)` and is skipped by
the `except ...: continue`; after a successful variant's inner scan the outer
`if best_distance == 0: break` may abandon the remaining variants. -/
def outerScan (registry : List (Nat × String)) :
    List (String × Option Nat) → MatchState → MatchState
  | [], s => s
  | (_, none) :: rest, s => outerScan registry rest s
  | (name, some h) :: rest, s =>
    let s2 := innerScan name h registry s
    if s2.bestDistance = some 0 then s2 else outerScan registry rest s2

/-- The whole search of `verify_artwork` over the variant catalogue and the
registry snapshot, started from the initial state. -/
def searchRegistry (variants : List (String × Option Nat)) (registry : List (Nat × String)) :
    MatchState :=
  outerScan registry variants initState

/-- The variants whose hash computation succeeded, in catalogue order. -/
def succVariants (variants : List (String × Option Nat)) : List (String × Nat) :=
  variants.filterMap (fun v => match v.2 with | none => none | some h => some (v.1, h))

/-- The exhaustive (variant × registry-entry) search space, in search order:
catalogue order outer, registry iteration order inner. -/
def pairList (variants : List (String × Option Nat)) (registry : List (Nat × String)) :
    List ((String × Nat) × (Nat × String)) :=
  (succVariants variants).flatMap (fun v => registry.map (fun e => (v, e)))

/-- Hamming distance of one (variant, registry-entry) pair. -/
def pairDist (p : (String × Nat) × (Nat × String)) : Nat :=
  hammingDistance p.1.2 p.2.1

/-- The update of the running best by one search pair. -/
def stepPair (p : (String × Nat) × (Nat × String)) (s : MatchState) : MatchState :=
  stepEntry p.1.1 p.1.2 p.2 s

/-- Reference search without the early exits: plain left fold of the
strict-improvement update over the full pair list. -/
def plainSearch (variants : List (String × Option Nat)) (registry : List (Nat × String)) :
    MatchState :=
  (pairList variants registry).foldl (fun s p => stepPair p s) initState

/-- Running best as an optional (distance, pair): the abstract form of the
strict-improvement update. -/
def bestOf (cur : Option (Nat × ((String × Nat) × (Nat × String))))
    (p : (String × Nat) × (Nat × String)) :
    Option (Nat × ((String × Nat) × (Nat × String))) :=
  match cur with
  | none => some (pairDist p, p)
  | some (d, q) => if pairDist p < d then some (pairDist p, p) else some (d, q)

/-- Fold of `bestOf` over a pair list. -/
def runBest (ps : List ((String × Nat) × (Nat × String))) :
    Option (Nat × ((String × Nat) × (Nat × String))) :=
  ps.foldl bestOf none

/-- The `MatchState` corresponding to an abstract running best. -/
def stateOf : Option (Nat × ((String × Nat) × (Nat × String))) → MatchState
  | none => initState
  | some (d, q) => ⟨some d, some q.2.1, some q.2.2, q.1.1⟩

/- ── Basic lemmas: the early exit never changes the computed state ───────── -/

theorem stepEntry_of_zero {s : MatchState} (h : s.bestDistance = some 0)
    (name : String) (suspect : Nat) (e : Nat × String) : stepEntry name suspect e s = s := by
  unfold stepEntry
  rw [h]
  simp [improves]

theorem foldEntries_of_zero {s : MatchState} (h : s.bestDistance = some 0)
    (name : String) (suspect : Nat) (reg : List (Nat × String)) :
    reg.foldl (fun t e => stepEntry name suspect e t) s = s := by
  induction reg with
  | nil => rfl
  | cons e rest ih =>
    simp only [List.foldl_cons, stepEntry_of_zero h, ih]

theorem innerScan_eq_foldl (name : String) (suspect : Nat) :
    ∀ (reg : List (Nat × String)) (s : MatchState),
      innerScan name suspect reg s = reg.foldl (fun t e => stepEntry name suspect e t) s := by
  intro reg
  induction reg with
  | nil => intro s; rfl
  | cons e rest ih =>
    intro s
    simp only [innerScan, List.foldl_cons]
    by_cases h : (stepEntry name suspect e s).bestDistance = some 0
    · rw [if_pos h, foldEntries_of_zero h]
    · rw [if_neg h, ih]

theorem pairList_nil (reg : List (Nat × String)) : pairList [] reg = [] := rfl

theorem pairList_cons_none (n : String) (vs : List (String × Option Nat))
    (reg : List (Nat × String)) :
    pairList ((n, none) :: vs) reg = pairList vs reg := rfl

theorem pairList_cons_some (n : String) (h : Nat) (vs : List (String × Option Nat))
    (reg : List (Nat × String)) :
    pairList ((n, some h) :: vs) reg
      = reg.map (fun e => ((n, h), e)) ++ pairList vs reg := rfl

theorem foldPairs_of_zero {s : MatchState} (h : s.bestDistance = some 0)
    (ps : List ((String × Nat) × (Nat × String))) :
    ps.foldl (fun t p => stepPair p t) s = s := by
  induction ps with
  | nil => rfl
  | cons p rest ih =>
    have h1 : stepPair p s = s := stepEntry_of_zero h _ _ _
    simp only [List.foldl_cons, h1, ih]

theorem outerScan_eq_foldPairs (reg : List (Nat × String)) :
    ∀ (vs : List (String × Option Nat)) (s : MatchState),
      outerScan reg vs s = (pairList vs reg).foldl (fun t p => stepPair p t) s := by
  intro vs
  induction vs with
  | nil => intro s; rfl
  | cons v rest ih =>
    intro s
    match v with
    | (n, none) =>
      simp only [outerScan, pairList_cons_none, ih]
    | (n, some h) =>
      simp only [outerScan, pairList_cons_some, List.foldl_append]
      rw [innerScan_eq_foldl]
      have hmap : (reg.map (fun e => ((n, h), e))).foldl (fun t p => stepPair p t) s
          = reg.foldl (fun t e => stepEntry n h e t) s := by
        rw [List.foldl_map]
        rfl
      by_cases hz : (reg.foldl (fun t e => stepEntry n h e t) s).bestDistance = some 0
      · rw [if_pos hz, hmap, foldPairs_of_zero]
        · exact hz.symm ▸ rfl
      · rw [if_neg hz, ih, hmap]

theorem searchRegistry_eq_plain (vs : List (String × Option Nat)) (reg : List (Nat × String)) :
    searchRegistry vs reg = plainSearch vs reg :=
  outerScan_eq_foldPairs reg vs initState

/- ── The strict-improvement fold as an abstract running best ─────────────── -/

theorem stepPair_stateOf (p : (String × Nat) × (Nat × String))
    (cur : Option (Nat × ((String × Nat) × (Nat × String)))) :
    stepPair p (stateOf cur) = stateOf (bestOf cur p) := by
  match cur with
  | none =>
    simp [stepPair, stepEntry, stateOf, bestOf, improves, initState, pairDist]
  | some (d, q) =>
    by_cases hlt : pairDist p < d
    · unfold pairDist at hlt
      simp [stepPair, stepEntry, stateOf, bestOf, improves, hlt, pairDist]
    · unfold pairDist at hlt
      simp [stepPair, stepEntry, stateOf, bestOf, improves, hlt, pairDist]

theorem foldPairs_eq_stateOf :
    ∀ (ps : List ((String × Nat) × (Nat × String)))
      (cur : Option (Nat × ((String × Nat) × (Nat × String)))),
      ps.foldl (fun s p => stepPair p s) (stateOf cur) = stateOf (ps.foldl bestOf cur) := by
  intro ps
  induction ps with
  | nil => intro cur; rfl
  | cons p rest ih =>
    intro cur
    simp only [List.foldl_cons]
    rw [stepPair_stateOf, ih]

theorem plainSearch_eq_stateOf (vs : List (String × Option Nat)) (reg : List (Nat × String)) :
    plainSearch vs reg = stateOf (runBest (pairList vs reg)) :=
  foldPairs_eq_stateOf (pairList vs reg) none

theorem bestOf_zero_absorb (ps : List ((String × Nat) × (Nat × String)))
    (q : (String × Nat) × (Nat × String)) :
    ps.foldl bestOf (some (0, q)) = some (0, q) := by
  induction ps with
  | nil => rfl
  | cons p rest ih =>
    simp only [List.foldl_cons, bestOf, Nat.not_lt_zero, if_false]
    exact ih

/-- The running-best fold finds the first pair attaining the minimum distance:
everything strictly before it in search order has strictly larger distance, and
everything after it has distance at least as large. -/
theorem runBest_spec (ps : List ((String × Nat) × (Nat × String))) (hps : ps ≠ []) :
    ∃ d q l1 l2, runBest ps = some (d, q) ∧ d = pairDist q ∧ ps = l1 ++ q :: l2
      ∧ (∀ p ∈ l1, d < pairDist p) ∧ (∀ p ∈ l2, d ≤ pairDist p) := by
  induction ps using List.reverseRecOn with
  | nil => exact absurd rfl hps
  | append_singleton ps0 p ih =>
    have hfold : runBest (ps0 ++ [p]) = bestOf (runBest ps0) p := by
      simp [runBest, List.foldl_append]
    by_cases h0 : ps0 = []
    · subst h0
      refine ⟨pairDist p, p, [], [], ?_, rfl, rfl, ?_, ?_⟩
      · simp [runBest, bestOf]
      · intro x hx; exact absurd hx (List.not_mem_nil x)
      · intro x hx; exact absurd hx (List.not_mem_nil x)
    · obtain ⟨d, q, l1, l2, h1, h2, h3, h4, h5⟩ := ih h0
      have hmem : ∀ x ∈ ps0, d ≤ pairDist x := by
        intro x hx
        rw [h3] at hx
        rcases List.mem_append.mp hx with hx1 | hx2
        · exact Nat.le_of_lt (h4 x hx1)
        · rcases List.mem_cons.mp hx2 with hq | hl2
          · exact hq ▸ Nat.le_of_eq h2
          · exact h5 x hl2
      rw [h1] at hfold
      by_cases hlt : pairDist p < d
      · refine ⟨pairDist p, p, ps0, [], ?_, rfl, rfl, ?_, ?_⟩
        · rw [hfold]; simp [bestOf, hlt]
        · intro x hx
          exact Nat.lt_of_lt_of_le hlt (hmem x hx)
        · intro x hx; exact absurd hx (List.not_mem_nil x)
      · refine ⟨d, q, l1, l2 ++ [p], ?_, h2, ?_, h4, ?_⟩
        · rw [hfold]; simp [bestOf, hlt]
        · rw [h3]; simp
        · intro x hx
          rcases List.mem_append.mp hx with hx1 | hx2
          · exact h5 x hx1
          · rcases List.mem_singleton.mp hx2 with rfl
            exact Nat.le_of_not_lt hlt

theorem pairList_append (vs vs2 : List (String × Option Nat)) (reg : List (Nat × String)) :
    pairList (vs ++ vs2) reg = pairList vs reg ++ pairList vs2 reg := by
  simp [pairList, succVariants, List.filterMap_append]

theorem pairList_ne_nil (vs : List (String × Option Nat)) (reg : List (Nat × String))
    (hall : ∀ v ∈ vs, v.2.isSome = true) (hvs : vs ≠ []) (hreg : reg ≠ []) :
    pairList vs reg ≠ [] := by
  match vs with
  | [] => exact absurd rfl hvs
  | v :: rest =>
    obtain ⟨h, hh⟩ := Option.isSome_iff_exists.mp (hall v (List.mem_cons_self v rest))
    match reg with
    | [] => exact absurd rfl hreg
    | e :: reg' =>
      cases v with
      | mk n o =>
        simp only at hh
        subst hh
        simp [pairList, succVariants]

theorem outerScan_filter (reg : List (Nat × String)) :
    ∀ (vs : List (String × Option Nat)) (s : MatchState),
      outerScan reg vs s = outerScan reg (vs.filter (fun v => v.2.isSome)) s := by
  intro vs
  induction vs with
  | nil => intro s; rfl
  | cons v rest ih =>
    intro s
    match v with
    | (n, none) =>
      simp only [List.filter_cons, Option.isSome_none, if_false]
      exact ih s
    | (n, some h) =>
      simp only [List.filter_cons, Option.isSome_some, if_true, outerScan]
      by_cases hz : (innerScan n h reg s).bestDistance = some 0
      · rw [if_pos hz, if_pos hz]
      · rw [if_neg hz, if_neg hz, ih]

/- ── The two HTTP-revision classifiers on top of the search ──────────────── -/

/-- The JSON object returned by `verify_artwork`, restricted to the fields the
claims are about. A branch that omits a field in the source sets it to `none`;
the uncaught `TypeError` of comparing `None <= 15` (all variants failed on a
non-empty registry) is the `"error"` status produced by the outer `except`. -/
structure VerifyResponse where
  status : String
  score : Option Nat
  matchedHash : Option Nat
  owner : Option String
deriving DecidableEq, Repr

/-- `verify_artwork` of `src/Veritas/api/main.py`: fetch registry (modelled as
the `registry` argument), short-circuit on empty registry, run the search,
then classify: distance 0 goes through the byte-level SHA-256 comparison
(`fetchOriginal` models `get_original_sha256_from_cloudinary`, `none` standing
for a failed or empty fetch), nonzero distance compares against threshold 15.
The variant catalogue is produced lazily from the probe by `genVariants`. -/
def verifyMain (genVariants : Unit → List (String × Option Nat)) (registry : List (Nat × String))
    (uploadedSha : String) (fetchOriginal : Option Nat → Option String) : VerifyResponse :=
  if registry = [] then ⟨"No Registry", none, none, none⟩
  else
    let s := searchRegistry (genVariants ()) registry
    match s.bestDistance with
    | none => ⟨"error", none, none, none⟩
    | some d =>
      if d = 0 then
        match fetchOriginal s.bestHash with
        | some originalSha =>
          if uploadedSha ≠ originalSha then
            ⟨"Plagiarism Detected", some 0, s.bestHash, s.bestOwner⟩
          else ⟨"Original", some 0, s.bestHash, s.bestOwner⟩
        | none => ⟨"Original", some 0, s.bestHash, s.bestOwner⟩
      else if d ≤ 15 then ⟨"Plagiarism Detected", some d, s.bestHash, s.bestOwner⟩
      else ⟨"Clear", some d, none, none⟩

/-- `verify_artwork` of `src/Veritas/projects/Veritas-frontend/api/index.py`:
no byte-level check on distance 0, plagiarism threshold 10. -/
def verifyIndex (genVariants : Unit → List (String × Option Nat))
    (registry : List (Nat × String)) : VerifyResponse :=
  if registry = [] then ⟨"No Registry", none, none, none⟩
  else
    let s := searchRegistry (genVariants ()) registry
    match s.bestDistance with
    | none => ⟨"error", none, none, none⟩
    | some d =>
      if d = 0 then ⟨"Original", some 0, s.bestHash, s.bestOwner⟩
      else if d ≤ 10 then ⟨"Plagiarism Detected", some d, s.bestHash, s.bestOwner⟩
      else ⟨"Clear", some d, none, none⟩

/- ── Claim theorems about the matcher ────────────────────────────────────── -/

/-- C1: with a non-empty registry and every variant's hash computation
succeeding, the reported best distance is 0 iff some (variant, registry-entry)
pair has Hamming distance 0, and it always equals the minimum distance over
the full (variant × registry) product; moreover the search abandons the outer
variant scan and the inner registry scan the moment a distance 0 is recorded. -/
theorem verify_best_distance_spec (vs : List (String × Option Nat)) (reg : List (Nat × String))
    (hall : ∀ v ∈ vs, v.2.isSome = true) (hvs : vs ≠ []) (hreg : reg ≠ []) :
    ∃ d, (searchRegistry vs reg).bestDistance = some d
      ∧ (d = 0 ↔ ∃ p ∈ pairList vs reg, pairDist p = 0)
      ∧ (∀ p ∈ pairList vs reg, d ≤ pairDist p)
      ∧ (∃ p ∈ pairList vs reg, pairDist p = d)
      ∧ (∀ vs2, d = 0 → searchRegistry (vs ++ vs2) reg = searchRegistry vs reg)
      ∧ (∀ (name : String) (hsh : Nat) (reg1 reg2 : List (Nat × String)) (s : MatchState),
          (innerScan name hsh reg1 s).bestDistance = some 0 →
          innerScan name hsh (reg1 ++ reg2) s = innerScan name hsh reg1 s) := by
  obtain ⟨d, q, l1, l2, h1, h2, h3, h4, h5⟩ :=
    runBest_spec (pairList vs reg) (pairList_ne_nil vs reg hall hvs hreg)
  have hsearch : searchRegistry vs reg = stateOf (some (d, q)) := by
    rw [searchRegistry_eq_plain, plainSearch_eq_stateOf, h1]
  have hqmem : q ∈ pairList vs reg := by
    rw [h3]; exact List.mem_append_right _ (List.mem_cons_self _ _)
  have hmin : ∀ p ∈ pairList vs reg, d ≤ pairDist p := by
    intro p hp; rw [h3] at hp
    rcases List.mem_append.mp hp with h | h
    · exact Nat.le_of_lt (h4 p h)
    · rcases List.mem_cons.mp h with rfl | h
      · exact Nat.le_of_eq h2
      · exact h5 p h
  refine ⟨d, by rw [hsearch]; rfl, ?_, hmin, ⟨q, hqmem, h2.symm⟩, ?_, ?_⟩
  · constructor
    · intro hd0; exact ⟨q, hqmem, by rw [← h2, hd0]⟩
    · rintro ⟨p, hp, hp0⟩
      have := hmin p hp; omega
  · intro vs2 hd0
    subst hd0
    rw [searchRegistry_eq_plain, plainSearch_eq_stateOf, pairList_append, runBest,
      List.foldl_append]
    rw [show (pairList vs reg).foldl bestOf none = some (0, q) from h1,
      bestOf_zero_absorb, hsearch]
  · intro name hsh reg1 reg2 s hz
    rw [innerScan_eq_foldl] at hz
    rw [innerScan_eq_foldl, innerScan_eq_foldl, List.foldl_append]
    exact foldEntries_of_zero hz name hsh reg2

/-- Concrete search space for the C1 witness: one variant, one registry entry
at distance 0. -/
def wVars1 : List (String × Option Nat) := [("Original", some 0)]

/-- Concrete registry for the C1 witness. -/
def wReg1 : List (Nat × String) := [(0, "alice")]

theorem verify_best_distance_spec_witness :
    (∀ v ∈ wVars1, v.2.isSome = true) ∧ wVars1 ≠ [] ∧ wReg1 ≠ []
    ∧ (∃ d, (searchRegistry wVars1 wReg1).bestDistance = some d
      ∧ (d = 0 ↔ ∃ p ∈ pairList wVars1 wReg1, pairDist p = 0)
      ∧ (∀ p ∈ pairList wVars1 wReg1, d ≤ pairDist p)
      ∧ (∃ p ∈ pairList wVars1 wReg1, pairDist p = d)
      ∧ (∀ vs2, d = 0 → searchRegistry (wVars1 ++ vs2) wReg1 = searchRegistry wVars1 wReg1)
      ∧ (∀ (name : String) (hsh : Nat) (reg1 reg2 : List (Nat × String)) (s : MatchState),
          (innerScan name hsh reg1 s).bestDistance = some 0 →
          innerScan name hsh (reg1 ++ reg2) s = innerScan name hsh reg1 s)) :=
  ⟨by decide, by decide, by decide,
    verify_best_distance_spec wVars1 wReg1 (by decide) (by decide) (by decide)⟩

/-- C6: the match fields (distance, hash, owner, variant name) recorded by the
search come from the first pair, in (variant order, then registry order),
attaining the minimal distance: every earlier pair has strictly larger
distance, and later pairs of equal distance never displace it. -/
theorem tie_break_first_min (vs : List (String × Option Nat)) (reg : List (Nat × String))
    (hall : ∀ v ∈ vs, v.2.isSome = true) (hvs : vs ≠ []) (hreg : reg ≠ []) :
    ∃ d q l1 l2, pairList vs reg = l1 ++ q :: l2
      ∧ (searchRegistry vs reg).bestDistance = some d
      ∧ (searchRegistry vs reg).bestHash = some q.2.1
      ∧ (searchRegistry vs reg).bestOwner = some q.2.2
      ∧ (searchRegistry vs reg).bestTransform = q.1.1
      ∧ d = pairDist q
      ∧ (∀ p ∈ l1, d < pairDist p)
      ∧ (∀ p ∈ l2, d ≤ pairDist p) := by
  obtain ⟨d, q, l1, l2, h1, h2, h3, h4, h5⟩ :=
    runBest_spec (pairList vs reg) (pairList_ne_nil vs reg hall hvs hreg)
  have hsearch : searchRegistry vs reg = stateOf (some (d, q)) := by
    rw [searchRegistry_eq_plain, plainSearch_eq_stateOf, h1]
  exact ⟨d, q, l1, l2, h3, by rw [hsearch]; rfl, by rw [hsearch]; rfl,
    by rw [hsearch]; rfl, by rw [hsearch]; rfl, h2, h4, h5⟩

/-- Concrete search space for the C6 witness: four pairs tie at distance 1. -/
def wVars2 : List (String × Option Nat) := [("Original", some 0), ("90deg Rotation", some 0)]

/-- Concrete registry for the C6 witness. -/
def wReg2 : List (Nat × String) := [(1, "alice"), (1, "bob")]

theorem tie_break_first_min_witness :
    (∀ v ∈ wVars2, v.2.isSome = true) ∧ wVars2 ≠ [] ∧ wReg2 ≠ []
    ∧ (∃ d q l1 l2, pairList wVars2 wReg2 = l1 ++ q :: l2
      ∧ (searchRegistry wVars2 wReg2).bestDistance = some d
      ∧ (searchRegistry wVars2 wReg2).bestHash = some q.2.1
      ∧ (searchRegistry wVars2 wReg2).bestOwner = some q.2.2
      ∧ (searchRegistry wVars2 wReg2).bestTransform = q.1.1
      ∧ d = pairDist q
      ∧ (∀ p ∈ l1, d < pairDist p)
      ∧ (∀ p ∈ l2, d ≤ pairDist p)) :=
  ⟨by decide, by decide, by decide,
    tie_break_first_min wVars2 wReg2 (by decide) (by decide) (by decide)⟩

/-- C9: variants whose transform or hash computation failed are skipped and the
overall match result equals the search restricted to the succeeding variants;
a variant failure never aborts the match (the search is total). -/
theorem variant_failure_skip (vs : List (String × Option Nat)) (reg : List (Nat × String)) :
    searchRegistry vs reg = searchRegistry (vs.filter (fun v => v.2.isSome)) reg :=
  outerScan_filter reg vs initState

/-- C7: with an empty registry the verifier short-circuits to the
`"No Registry"` verdict, and the response is independent of the probe's
variant generator, of the uploaded bytes' hash, and of the asset fetcher —
no hash computation can influence it. -/
theorem empty_registry_short_circuit :
    (∀ gen u fetch, (verifyMain gen [] u fetch).status = "No Registry"
      ∧ (verifyIndex gen []).status = "No Registry")
    ∧ (∀ gen1 gen2 u1 u2 f1 f2, verifyMain gen1 [] u1 f1 = verifyMain gen2 [] u2 f2)
    ∧ (∀ gen1 gen2, verifyIndex gen1 [] = verifyIndex gen2 []) :=
  ⟨fun _ _ _ => ⟨rfl, rfl⟩, fun _ _ _ _ _ _ => rfl, fun _ _ => rfl⟩

/-- C4: for a non-empty registry and nonzero best distance `d`, the "main"
revision classifies `0 < d ≤ 15` as `"Plagiarism Detected"` with score `d` and
`d > 15` as `"Clear"`; the "index" revision does the same with threshold 10. -/
theorem threshold_verdicts (gen : Unit → List (String × Option Nat))
    (registry : List (Nat × String)) (u : String) (fetch : Option Nat → Option String)
    (d : Nat) (hreg : registry ≠ [])
    (hd : (searchRegistry (gen ()) registry).bestDistance = some d) (hpos : 0 < d) :
    (d ≤ 15 → (verifyMain gen registry u fetch).status = "Plagiarism Detected"
      ∧ (verifyMain gen registry u fetch).score = some d)
    ∧ (15 < d → (verifyMain gen registry u fetch).status = "Clear")
    ∧ (d ≤ 10 → (verifyIndex gen registry).status = "Plagiarism Detected"
      ∧ (verifyIndex gen registry).score = some d)
    ∧ (10 < d → (verifyIndex gen registry).status = "Clear") := by
  have hd0 : ¬ d = 0 := by omega
  simp only [verifyMain, verifyIndex, if_neg hreg, hd, if_neg hd0]
  refine ⟨fun h15 => ?_, fun h15 => ?_, fun h10 => ?_, fun h10 => ?_⟩
  · rw [if_pos h15]; exact ⟨rfl, rfl⟩
  · rw [if_neg (by omega : ¬ d ≤ 15)]
  · rw [if_pos h10]; exact ⟨rfl, rfl⟩
  · rw [if_neg (by omega : ¬ d ≤ 10)]

/-- Concrete variants for the C4 witness: best distance is 1. -/
def wVars3 : List (String × Option Nat) := [("Original", some 0)]

/-- Concrete registry for the C4 witness. -/
def wReg3 : List (Nat × String) := [(1, "alice")]

theorem threshold_verdicts_witness :
    wReg3 ≠ [] ∧ (searchRegistry wVars3 wReg3).bestDistance = some 1 ∧ 0 < 1
    ∧ ((1 ≤ 15 → (verifyMain (fun _ => wVars3) wReg3 "u" (fun _ => none)).status
          = "Plagiarism Detected"
        ∧ (verifyMain (fun _ => wVars3) wReg3 "u" (fun _ => none)).score = some 1)
      ∧ (15 < 1 → (verifyMain (fun _ => wVars3) wReg3 "u" (fun _ => none)).status = "Clear")
      ∧ (1 ≤ 10 → (verifyIndex (fun _ => wVars3) wReg3).status = "Plagiarism Detected"
        ∧ (verifyIndex (fun _ => wVars3) wReg3).score = some 1)
      ∧ (10 < 1 → (verifyIndex (fun _ => wVars3) wReg3).status = "Clear")) :=
  ⟨by decide, by decide, by decide,
    threshold_verdicts (fun _ => wVars3) wReg3 "u" (fun _ => none) 1
      (by decide) (by decide) (by decide)⟩

/-- C5: when the best distance is exactly 0, the "main" revision's verdict is
decided by the byte-level comparison: a retrievable original whose SHA-256
differs from the probe's yields `"Plagiarism Detected"` with score 0; a
matching SHA-256, or an unretrievable original (`none`), yields `"Original"`. -/
theorem zero_distance_byte_check (gen : Unit → List (String × Option Nat))
    (registry : List (Nat × String)) (u : String) (fetch : Option Nat → Option String)
    (hreg : registry ≠ [])
    (h0 : (searchRegistry (gen ()) registry).bestDistance = some 0) :
    (∀ o, fetch (searchRegistry (gen ()) registry).bestHash = some o →
        (o ≠ u → (verifyMain gen registry u fetch).status = "Plagiarism Detected"
          ∧ (verifyMain gen registry u fetch).score = some 0)
        ∧ (o = u → (verifyMain gen registry u fetch).status = "Original"
          ∧ (verifyMain gen registry u fetch).score = some 0))
    ∧ (fetch (searchRegistry (gen ()) registry).bestHash = none →
        (verifyMain gen registry u fetch).status = "Original"
          ∧ (verifyMain gen registry u fetch).score = some 0) := by
  refine ⟨?_, ?_⟩
  · intro o ho
    refine ⟨?_, ?_⟩
    · intro hne
      have hne2 : u ≠ o := Ne.symm hne
      simp [verifyMain, if_neg hreg, h0, ho, hne2]
    · intro heq
      subst heq
      simp [verifyMain, if_neg hreg, h0, ho]
  · intro hnone
    simp [verifyMain, if_neg hreg, h0, hnone]

/-- Concrete variants for the C5 witness: exact match at distance 0. -/
def wVars4 : List (String × Option Nat) := [("Original", some 7)]

/-- Concrete registry for the C5 witness. -/
def wReg4 : List (Nat × String) := [(7, "alice")]

theorem zero_distance_byte_check_witness :
    wReg4 ≠ [] ∧ (searchRegistry wVars4 wReg4).bestDistance = some 0
    ∧ ((∀ o, (fun _ => some "orig" : Option Nat → Option String)
            (searchRegistry wVars4 wReg4).bestHash = some o →
        (o ≠ "probe" → (verifyMain (fun _ => wVars4) wReg4 "probe" (fun _ => some "orig")).status
              = "Plagiarism Detected"
          ∧ (verifyMain (fun _ => wVars4) wReg4 "probe" (fun _ => some "orig")).score = some 0)
        ∧ (o = "probe" → (verifyMain (fun _ => wVars4) wReg4 "probe" (fun _ => some "orig")).status
              = "Original"
          ∧ (verifyMain (fun _ => wVars4) wReg4 "probe" (fun _ => some "orig")).score = some 0))
      ∧ ((fun _ => some "orig" : Option Nat → Option String)
            (searchRegistry wVars4 wReg4).bestHash = none →
        (verifyMain (fun _ => wVars4) wReg4 "probe" (fun _ => some "orig")).status = "Original"
          ∧ (verifyMain (fun _ => wVars4) wReg4 "probe" (fun _ => some "orig")).score = some 0)) :=
  ⟨by decide, by decide,
    zero_distance_byte_check (fun _ => wVars4) wReg4 "probe" (fun _ => some "orig")
      (by decide) (by decide)⟩

/- ── HashEncoder: the median-threshold bitmask of `analyze_artwork` ──────── -/

/-- Row index of flattened position `i` (numpy C-order `flatten`). -/
def rowOf (i : Fin 64) : Fin 8 := ⟨i.val / 8, by have h := i.isLt; omega⟩

/-- Column index of flattened position `i` (numpy C-order `flatten`). -/
def colOf (i : Fin 64) : Fin 8 := ⟨i.val % 8, Nat.mod_lt _ (by norm_num)⟩

/-- `coeffs_full = low_freq.flatten()`: the 8×8 block in row-major order.
Coefficients are modelled as exact rationals. -/
def flattenBlock (block : Fin 8 → Fin 8 → ℚ) : List ℚ :=
  List.ofFn (fun i : Fin 64 => block (rowOf i) (colOf i))

/-- `coeffs_no_dc = coeffs_full[1:]`: the 63 AC coefficients. -/
def acCoeffs (block : Fin 8 → Fin 8 → ℚ) : List ℚ :=
  (flattenBlock block).drop 1

/-- The AC coefficients in ascending order, as `np.median` sorts them. -/
def sortedAC (block : Fin 8 → Fin 8 → ℚ) : List ℚ :=
  (acCoeffs block).insertionSort (· ≤ ·)

/-- `median_val = np.median(coeffs_no_dc)`: 63 values is odd, so numpy returns
the single middle element, index 31 of the sorted sequence. -/
def median_val (block : Fin 8 → Fin 8 → ℚ) : ℚ :=
  (sortedAC block).getD 31 0

/-- `bits = [1 if c > median_val else 0 for c in coeffs_full]`, `true` = `1`. -/
def hashBits (block : Fin 8 → Fin 8 → ℚ) : List Bool :=
  (flattenBlock block).map (fun c => decide (c > median_val block))

theorem flattenBlock_length (block : Fin 8 → Fin 8 → ℚ) :
    (flattenBlock block).length = 64 := by
  simp [flattenBlock]

theorem acCoeffs_length (block : Fin 8 → Fin 8 → ℚ) :
    (acCoeffs block).length = 63 := by
  simp [acCoeffs, flattenBlock]

theorem sortedAC_length (block : Fin 8 → Fin 8 → ℚ) :
    (sortedAC block).length = 63 := by
  have h := (List.perm_insertionSort (r := (· ≤ · : ℚ → ℚ → Prop)) (acCoeffs block)).length_eq
  rw [sortedAC, h, acCoeffs_length]

theorem median_val_eq_get (block : Fin 8 → Fin 8 → ℚ)
    (h31 : 31 < (sortedAC block).length) :
    median_val block = (sortedAC block).get ⟨31, h31⟩ := by
  simp [median_val, List.getD_eq_getElem?_getD, List.getElem?_eq_getElem h31]

theorem median_val_mem (block : Fin 8 → Fin 8 → ℚ) :
    median_val block ∈ acCoeffs block := by
  have hlen := sortedAC_length block
  have h31 : 31 < (sortedAC block).length := by omega
  rw [median_val_eq_get block h31]
  have hmem : (sortedAC block).get ⟨31, h31⟩ ∈ sortedAC block := List.get_mem _ _ _
  exact (List.perm_insertionSort _ _).subset hmem

theorem countP_lt_median (block : Fin 8 → Fin 8 → ℚ) :
    (acCoeffs block).countP (fun c => decide (c < median_val block)) ≤ 31 := by
  have hsort : (sortedAC block).Sorted (· ≤ ·) := List.sorted_insertionSort _ _
  have hperm : (sortedAC block).Perm (acCoeffs block) := List.perm_insertionSort _ _
  have hlen : (sortedAC block).length = 63 := sortedAC_length block
  have h31 : 31 < (sortedAC block).length := by omega
  rw [← hperm.countP_eq]
  conv_lhs => rw [← List.take_append_drop 31 (sortedAC block)]
  rw [List.countP_append]
  have h1 : ((sortedAC block).take 31).countP (fun c => decide (c < median_val block)) ≤ 31 := by
    refine le_trans (List.countP_le_length _) ?_
    rw [List.length_take]; omega
  have h2 : ((sortedAC block).drop 31).countP (fun c => decide (c < median_val block)) = 0 := by
    rw [List.countP_eq_zero]
    intro a ha
    obtain ⟨j, hj, hja⟩ := List.mem_iff_getElem.mp ha
    rw [List.getElem_drop] at hja
    have hmle : median_val block ≤ a := by
      rw [median_val_eq_get block h31, ← hja]
      rcases Nat.eq_zero_or_pos j with rfl | hj0
      · exact le_of_eq (by norm_num)
      · exact hsort.rel_get_of_lt (a := ⟨31, h31⟩)
          (b := ⟨31 + j, by rw [List.length_drop] at hj; omega⟩)
          (Fin.mk_lt_mk.mpr (by omega))
    simp only [decide_eq_true_iff]
    exact not_lt.mpr hmle
  omega

theorem countP_gt_median (block : Fin 8 → Fin 8 → ℚ) :
    (acCoeffs block).countP (fun c => decide (median_val block < c)) ≤ 31 := by
  have hsort : (sortedAC block).Sorted (· ≤ ·) := List.sorted_insertionSort _ _
  have hperm : (sortedAC block).Perm (acCoeffs block) := List.perm_insertionSort _ _
  have hlen : (sortedAC block).length = 63 := sortedAC_length block
  have h31 : 31 < (sortedAC block).length := by omega
  rw [← hperm.countP_eq]
  conv_lhs => rw [← List.take_append_drop 32 (sortedAC block)]
  rw [List.countP_append]
  have h1 : ((sortedAC block).take 32).countP (fun c => decide (median_val block < c)) = 0 := by
    rw [List.countP_eq_zero]
    intro a ha
    obtain ⟨j, hj, hja⟩ := List.mem_iff_getElem.mp ha
    rw [List.getElem_take] at hja
    have hjlen : j < 32 := by rw [List.length_take] at hj; omega
    have hale : a ≤ median_val block := by
      rw [median_val_eq_get block h31, ← hja]
      rcases Nat.lt_or_ge j 31 with hj31 | hj31
      · exact hsort.rel_get_of_lt (a := ⟨j, by omega⟩) (b := ⟨31, h31⟩)
          (Fin.mk_lt_mk.mpr (by omega))
      · have hj31e : j = 31 := by omega
        subst hj31e
        exact le_of_eq rfl
    simp only [decide_eq_true_iff]
    exact not_lt.mpr hale
  have h2 : ((sortedAC block).drop 32).countP (fun c => decide (median_val block < c)) ≤ 31 := by
    refine le_trans (List.countP_le_length _) ?_
    rw [List.length_drop]; omega
  omega

theorem flattenBlock_getD (block : Fin 8 → Fin 8 → ℚ) (i : Fin 64) :
    (flattenBlock block).getD i.val 0 = block (rowOf i) (colOf i) := by
  have hi : i.val < (List.ofFn (fun i : Fin 64 => block (rowOf i) (colOf i))).length := by
    rw [List.length_ofFn]; exact i.isLt
  simp only [flattenBlock, List.getD_eq_getElem?_getD, List.getElem?_eq_getElem hi,
    Option.getD_some, List.getElem_ofFn, Fin.eta]

theorem hashBits_getD (block : Fin 8 → Fin 8 → ℚ) (i : Fin 64) :
    (hashBits block).getD i.val false
      = decide ((flattenBlock block).getD i.val 0 > median_val block) := by
  have hi : i.val < (flattenBlock block).length := by
    rw [flattenBlock_length]; exact i.isLt
  have hi2 : i.val < ((flattenBlock block).map
      (fun c => decide (c > median_val block))).length := by
    rw [List.length_map]; exact hi
  simp only [hashBits, List.getD_eq_getElem?_getD, List.getElem?_eq_getElem hi2,
    List.getElem?_eq_getElem hi, Option.getD_some, List.getElem_map]

/-- C2: the hash encoder flattens the 8×8 block row-major, takes the median of
the 63 AC coefficients — the single middle (index 31) of the sorted sequence,
an element with at most 31 AC coefficients strictly below it and at most 31
strictly above it — and emits 64 bits in the same order, bit `i` = 1 iff
coefficient `i` strictly exceeds the median (ties to 0). -/
theorem hash_encoder_spec (block : Fin 8 → Fin 8 → ℚ) :
    (flattenBlock block).length = 64
    ∧ (∀ i : Fin 64, (flattenBlock block).getD i.val 0 = block (rowOf i) (colOf i))
    ∧ (acCoeffs block).length = 63
    ∧ median_val block ∈ acCoeffs block
    ∧ (acCoeffs block).countP (fun c => decide (c < median_val block)) ≤ 31
    ∧ (acCoeffs block).countP (fun c => decide (median_val block < c)) ≤ 31
    ∧ (hashBits block).length = 64
    ∧ (∀ i : Fin 64, ((hashBits block).getD i.val false = true
        ↔ median_val block < (flattenBlock block).getD i.val 0)) := by
  refine ⟨flattenBlock_length block, flattenBlock_getD block, acCoeffs_length block,
    median_val_mem block, countP_lt_median block, countP_gt_median block, ?_, ?_⟩
  · rw [hashBits, List.length_map, flattenBlock_length]
  · intro i
    rw [hashBits_getD block i]
    exact decide_eq_true_iff

/- ── RegistryCodec: box-key stripping and Algorand address encoding ──────── -/

/-- `BOX_PREFIX = "registered_hashes"`, the storage field name stripped from
box keys. -/
def boxKeyNamespace : List Char := String.toList "registered_hashes"

/-- Boolean test that the first list is an initial segment of the second
(`str.startswith` on the decoded key). -/
def isPref : List Char → List Char → Bool
  | [], _ => true
  | _ :: _, [] => false
  | c :: cs, d :: ds => c = d && isPref cs ds

/-- `raw_key[len(BOX_PREFIX):] if raw_key.startswith(BOX_PREFIX) else raw_key`. -/
def decodeBoxKey (rawKey : List Char) : List Char :=
  if isPref boxKeyNamespace rawKey then rawKey.drop boxKeyNamespace.length else rawKey

/-- The RFC 4648 base32 alphabet used by `base64.b32encode`. -/
def b32alphabet : List Char := String.toList "ABCDEFGHIJKLMNOPQRSTUVWXYZ234567"

/-- The 8 bits of a byte, most significant first. -/
def byteBits (b : Nat) : List Bool :=
  [b.testBit 7, b.testBit 6, b.testBit 5, b.testBit 4,
   b.testBit 3, b.testBit 2, b.testBit 1, b.testBit 0]

/-- Value of a 5-bit group, most significant first. -/
def quintVal (g : List Bool) : Nat :=
  g.foldl (fun a bit => 2 * a + (if bit then 1 else 0)) 0

/-- Split a bit stream into 5-bit groups, zero-padding the final group. -/
def toQuintets : List Bool → List Nat
  | [] => []
  | b0 :: rest =>
    quintVal (((b0 :: rest).take 5) ++ List.replicate (5 - ((b0 :: rest).take 5).length) false)
      :: toQuintets (rest.drop 4)
termination_by l => l.length
decreasing_by simp only [List.length_drop, List.length_cons]; omega

/-- The base32 data characters of a byte string (no `=` padding yet). -/
def b32chars (bs : List Nat) : List Char :=
  (toQuintets (bs.flatMap byteBits)).map (fun q => b32alphabet.getD q 'A')

/-- `base64.b32encode`: data characters padded with `=` to a multiple of 8. -/
def b32padded (bs : List Nat) : List Char :=
  b32chars bs ++ List.replicate ((8 - (b32chars bs).length % 8) % 8) '='

/-- `.rstrip("=")`: drop trailing padding characters. -/
def stripTrailingEq (cs : List Char) : List Char :=
  (cs.reverse.dropWhile (fun c => c = '=')).reverse

/-- `encode_algorand_address`: append the last 4 bytes of the sha512/256
digest of the 32-byte public key, base32-encode, uppercase, strip `=`.
The digest function itself is an opaque parameter (`hashlib` is external). -/
def encode_algorand_address (digest : List Nat → List Nat) (pk : List Nat) : List Char :=
  stripTrailingEq
    ((b32padded (pk ++ (digest pk).drop ((digest pk).length - 4))).map Char.toUpper)

theorem isPref_append (pre : List Char) :
    ∀ rest : List Char, isPref pre (pre ++ rest) = true := by
  induction pre with
  | nil => intro rest; rfl
  | cons c cs ih =>
    intro rest
    simp [isPref, ih]

theorem isPref_iff_append (pre raw : List Char) :
    isPref pre raw = true ↔ ∃ rest, raw = pre ++ rest := by
  constructor
  · intro h
    induction pre generalizing raw with
    | nil => exact ⟨raw, rfl⟩
    | cons c cs ih =>
      match raw with
      | [] => simp [isPref] at h
      | d :: ds =>
        simp only [isPref, Bool.and_eq_true, decide_eq_true_iff] at h
        obtain ⟨rest, hrest⟩ := ih ds h.2
        exact ⟨rest, by rw [List.cons_append, ← hrest, h.1]⟩
  · rintro ⟨rest, rfl⟩
    exact isPref_append pre rest

theorem b32chars_mem_alphabet (bs : List Nat) :
    ∀ c ∈ b32chars bs, c ∈ b32alphabet := by
  intro c hc
  obtain ⟨q, _, hq⟩ := List.mem_map.mp hc
  subst hq
  by_cases h : q < b32alphabet.length
  · have : b32alphabet.getD q 'A' = b32alphabet.get ⟨q, h⟩ := by
      simp [List.getD_eq_getElem?_getD, List.getElem?_eq_getElem h]
    rw [this]
    exact List.get_mem _ _ _
  · have : b32alphabet.getD q 'A' = 'A' := by
      simp [List.getD_eq_getElem?_getD, List.getElem?_eq_none (by omega : b32alphabet.length ≤ q)]
    rw [this]
    decide

theorem b32chars_upper_id (bs : List Nat) :
    (b32chars bs).map Char.toUpper = b32chars bs := by
  have halpha : ∀ c ∈ b32alphabet, Char.toUpper c = c := by decide
  have h : ∀ c ∈ b32chars bs, Char.toUpper c = c := fun c hc =>
    halpha c (b32chars_mem_alphabet bs c hc)
  calc (b32chars bs).map Char.toUpper = (b32chars bs).map id := List.map_congr_left h
    _ = b32chars bs := List.map_id _

theorem b32chars_no_eq_char (bs : List Nat) : ∀ c ∈ b32chars bs, ¬ c = '=' := by
  intro c hc he
  have := b32chars_mem_alphabet bs c hc
  rw [he] at this
  exact absurd this (by decide)

theorem stripTrailingEq_pad (cs : List Char) (k : Nat) (h : ∀ c ∈ cs, ¬ c = '=') :
    stripTrailingEq (cs ++ List.replicate k '=') = cs := by
  unfold stripTrailingEq
  rw [List.reverse_append, List.reverse_replicate]
  have h1 : List.dropWhile (fun c => decide (c = '='))
      (List.replicate k '=' ++ cs.reverse) = List.dropWhile (fun c => decide (c = '=')) cs.reverse := by
    induction k with
    | zero => rfl
    | succ n ih => simp [List.replicate_succ, List.dropWhile, ih]
  rw [h1]
  have h2 : List.dropWhile (fun c => decide (c = '=')) cs.reverse = cs.reverse := by
    match hrev : cs.reverse with
    | [] => rfl
    | d :: ds =>
      have hd : d ∈ cs := by
        have : d ∈ cs.reverse := by rw [hrev]; exact List.mem_cons_self _ _
        exact List.mem_reverse.mp this
      rw [List.dropWhile_cons_of_neg]
      simp [h d hd]
  rw [h2, List.reverse_reverse]

/-- C8: the codec strips the fixed `"registered_hashes"` box-key namespace
exactly when present (otherwise the key is used verbatim), and the owner
identifier is the base32 encoding, already uppercase and with the `=` padding
removed, of the 32-byte public key followed by the last 4 bytes of its
sha512/256 digest — a 36-byte input whose checksum has exactly 4 bytes. -/
theorem registry_codec_spec :
    (∀ raw : List Char, isPref boxKeyNamespace raw = true →
      boxKeyNamespace ++ decodeBoxKey raw = raw)
    ∧ (∀ raw : List Char, isPref boxKeyNamespace raw = false → decodeBoxKey raw = raw)
    ∧ (∀ digest pk, encode_algorand_address digest pk
        = b32chars (pk ++ (digest pk).drop ((digest pk).length - 4)))
    ∧ (∀ (digest : List Nat → List Nat) pk, (digest pk).length = 32 →
        ((digest pk).drop ((digest pk).length - 4)).length = 4)
    ∧ (∀ (digest : List Nat → List Nat) pk, pk.length = 32 → (digest pk).length = 32 →
        (pk ++ (digest pk).drop ((digest pk).length - 4)).length = 36) := by
  refine ⟨?_, ?_, ?_, ?_, ?_⟩
  · intro raw h
    obtain ⟨rest, rfl⟩ := (isPref_iff_append _ _).mp h
    rw [decodeBoxKey, if_pos h, List.drop_left]
  · intro raw h
    rw [decodeBoxKey, if_neg (by rw [h]; exact Bool.false_ne_true)]
  · intro digest pk
    rw [encode_algorand_address, b32padded, List.map_append, b32chars_upper_id,
      List.map_replicate]
    have : Char.toUpper '=' = '=' := by decide
    rw [this, stripTrailingEq_pad _ _ (b32chars_no_eq_char _)]
  · intro digest pk h
    rw [List.length_drop, h]
  · intro digest pk hpk h
    rw [List.length_append, List.length_drop, hpk, h]

theorem registry_codec_spec_witness :
    (isPref boxKeyNamespace (String.toList "registered_hashesabcd") = true
      ∧ boxKeyNamespace ++ decodeBoxKey (String.toList "registered_hashesabcd")
          = String.toList "registered_hashesabcd")
    ∧ (isPref boxKeyNamespace (String.toList "abcd") = false
      ∧ decodeBoxKey (String.toList "abcd") = String.toList "abcd")
    ∧ ((List.replicate 32 (0 : Nat)).length = 32
      ∧ ((List.replicate 32 (0 : Nat)).drop ((List.replicate 32 (0 : Nat)).length - 4)).length = 4)
    ∧ encode_algorand_address (fun _ => List.replicate 32 0) (List.replicate 32 0)
        = b32chars (List.replicate 32 0
            ++ (List.replicate 32 (0 : Nat)).drop ((List.replicate 32 (0 : Nat)).length - 4)) :=
  ⟨⟨by decide, registry_codec_spec.1 _ (by decide)⟩,
   ⟨by decide, registry_codec_spec.2.1 _ (by decide)⟩,
   ⟨by decide, registry_codec_spec.2.2.2.1 (fun _ => List.replicate 32 0) (List.replicate 32 0)
      (by decide)⟩,
   registry_codec_spec.2.2.1 (fun _ => List.replicate 32 0) (List.replicate 32 0)⟩

/- ── Registry decoding as a Python-dict fold ─────────────────────────────── -/

/-- `registry[phash_hex] = owner_address` on a Python dict: replace the value
in place when the key exists (keeping its position), else append. -/
def insertReplace (k v : List Char) :
    List (List Char × List Char) → List (List Char × List Char)
  | [] => [(k, v)]
  | (k2, v2) :: rest =>
    if k2 = k then (k2, v) :: rest else (k2, v2) :: insertReplace k v rest

/-- The box-decoding loop of `fetch_registry_from_chain`: each raw record is
the decoded UTF-8 box name and the 32-byte public-key value; keys are stripped
of the namespace, values encoded as Algorand addresses, and the pairs are
assigned into the dict in sequence order. -/
def decodeRegistryRecords (digest : List Nat → List Nat)
    (records : List (List Char × List Nat)) : List (List Char × List Char) :=
  records.foldl
    (fun reg r => insertReplace (decodeBoxKey r.1) (encode_algorand_address digest r.2) reg) []

/-- Dict lookup on the association-list model. -/
def lookupOwner (reg : List (List Char × List Char)) (k : List Char) : Option (List Char) :=
  (reg.find? (fun e => decide (e.1 = k))).map Prod.snd

theorem lookupOwner_cons (a b : List Char) (reg : List (List Char × List Char)) (k2 : List Char) :
    lookupOwner ((a, b) :: reg) k2 = if a = k2 then some b else lookupOwner reg k2 := by
  by_cases h : a = k2
  · simp [lookupOwner, List.find?, h]
  · simp [lookupOwner, List.find?, h]

theorem lookupOwner_insertReplace (k v k2 : List Char) :
    ∀ reg, lookupOwner (insertReplace k v reg) k2
      = if k2 = k then some v else lookupOwner reg k2 := by
  intro reg
  induction reg with
  | nil =>
    by_cases h : k2 = k
    · rw [if_pos h]
      show lookupOwner ((k, v) :: []) k2 = some v
      rw [lookupOwner_cons, if_pos h.symm]
    · rw [if_neg h]
      show lookupOwner ((k, v) :: []) k2 = lookupOwner [] k2
      rw [lookupOwner_cons, if_neg (fun hh => h hh.symm)]
  | cons e rest ih =>
    match e with
    | (k3, v3) =>
      by_cases h3 : k3 = k
      · simp only [insertReplace, if_pos h3]
        rw [lookupOwner_cons, lookupOwner_cons]
        by_cases h : k3 = k2
        · rw [if_pos h, if_pos h, if_pos (h.symm.trans h3)]
        · rw [if_neg h, if_neg h, if_neg (fun hh => h (h3.trans hh.symm))]
      · simp only [insertReplace, if_neg h3]
        rw [lookupOwner_cons, lookupOwner_cons, ih]
        by_cases h : k3 = k2
        · rw [if_pos h, if_pos h, if_neg (fun hh => h3 (h.trans hh))]
        · rw [if_neg h, if_neg h]

theorem insertReplace_keys (k v : List Char) :
    ∀ reg, (insertReplace k v reg).map Prod.fst
      = if k ∈ reg.map Prod.fst then reg.map Prod.fst else reg.map Prod.fst ++ [k] := by
  intro reg
  induction reg with
  | nil => simp [insertReplace]
  | cons e rest ih =>
    match e with
    | (k3, v3) =>
      by_cases h3 : k3 = k
      · subst h3
        simp [insertReplace, List.mem_cons]
      · simp only [insertReplace, if_neg h3, List.map_cons, List.mem_cons]
        have hne : ¬ k = k3 := fun hh => h3 hh.symm
        by_cases hmem : k ∈ rest.map Prod.fst
        · simp [hne, hmem, ih]
        · simp [hne, hmem, ih]

theorem insertReplace_length (k v : List Char) :
    ∀ reg, (insertReplace k v reg).length
      = if k ∈ reg.map Prod.fst then reg.length else reg.length + 1 := by
  intro reg
  have h := congrArg List.length (insertReplace_keys k v reg)
  rw [List.length_map] at h
  by_cases hmem : k ∈ reg.map Prod.fst
  · rw [if_pos hmem] at h
    rw [if_pos hmem, h, List.length_map]
  · rw [if_neg hmem] at h
    rw [if_neg hmem, h, List.length_append, List.length_map]
    rfl

theorem decodeFold_length_le (digest : List Nat → List Nat) :
    ∀ (records : List (List Char × List Nat)) (acc : List (List Char × List Char)),
      (records.foldl (fun reg r =>
          insertReplace (decodeBoxKey r.1) (encode_algorand_address digest r.2) reg) acc).length
        ≤ acc.length + records.length := by
  intro records
  induction records with
  | nil => intro acc; simp
  | cons r rest ih =>
    intro acc
    simp only [List.foldl_cons, List.length_cons]
    refine le_trans (ih _) ?_
    rw [insertReplace_length]
    by_cases hmem : decodeBoxKey r.1 ∈ acc.map Prod.fst
    · rw [if_pos hmem]; omega
    · rw [if_neg hmem]; omega

theorem decodeFold_keys_mono (digest : List Nat → List Nat) (k : List Char) :
    ∀ (records : List (List Char × List Nat)) (acc : List (List Char × List Char)),
      k ∈ acc.map Prod.fst →
      k ∈ (records.foldl (fun reg r =>
          insertReplace (decodeBoxKey r.1) (encode_algorand_address digest r.2) reg) acc).map
            Prod.fst := by
  intro records
  induction records with
  | nil => intro acc h; exact h
  | cons r rest ih =>
    intro acc h
    simp only [List.foldl_cons]
    refine ih _ ?_
    rw [insertReplace_keys]
    by_cases hmem : decodeBoxKey r.1 ∈ acc.map Prod.fst
    · rw [if_pos hmem]; exact h
    · rw [if_neg hmem]; exact List.mem_append_left _ h

theorem decodeFold_length_lt (digest : List Nat → List Nat) :
    ∀ (records : List (List Char × List Nat)) (acc : List (List Char × List Char)),
      (∃ r ∈ records, decodeBoxKey r.1 ∈ acc.map Prod.fst) →
      (records.foldl (fun reg r =>
          insertReplace (decodeBoxKey r.1) (encode_algorand_address digest r.2) reg) acc).length
            + 1
        ≤ acc.length + records.length := by
  intro records
  induction records with
  | nil =>
    rintro acc ⟨r, hr, _⟩
    exact absurd hr (List.not_mem_nil r)
  | cons r0 rest ih =>
    rintro acc ⟨r, hr, hkey⟩
    simp only [List.foldl_cons, List.length_cons]
    rcases List.mem_cons.mp hr with rfl | hrest
    · have hlen : (insertReplace (decodeBoxKey r.1)
          (encode_algorand_address digest r.2) acc).length = acc.length := by
        rw [insertReplace_length, if_pos hkey]
      have := decodeFold_length_le digest rest
        (insertReplace (decodeBoxKey r.1) (encode_algorand_address digest r.2) acc)
      omega
    · have hkey2 : decodeBoxKey r.1 ∈ (insertReplace (decodeBoxKey r0.1)
          (encode_algorand_address digest r0.2) acc).map Prod.fst := by
        rw [insertReplace_keys]
        by_cases hmem : decodeBoxKey r0.1 ∈ acc.map Prod.fst
        · rw [if_pos hmem]; exact hkey
        · rw [if_neg hmem]; exact List.mem_append_left _ hkey
      have hstep : (insertReplace (decodeBoxKey r0.1)
          (encode_algorand_address digest r0.2) acc).length ≤ acc.length + 1 := by
        rw [insertReplace_length]
        by_cases hmem : decodeBoxKey r0.1 ∈ acc.map Prod.fst
        · rw [if_pos hmem]; omega
        · rw [if_neg hmem]
      have := ih _ ⟨r, hrest, hkey2⟩
      omega

theorem decodeFold_lookup (digest : List Nat → List Nat) (k : List Char) :
    ∀ (records : List (List Char × List Nat)) (acc : List (List Char × List Char)),
      lookupOwner (records.foldl (fun reg r =>
          insertReplace (decodeBoxKey r.1) (encode_algorand_address digest r.2) reg) acc) k
        = match (records.filter (fun r => decide (decodeBoxKey r.1 = k))).getLast? with
          | some r => some (encode_algorand_address digest r.2)
          | none => lookupOwner acc k := by
  intro records
  induction records with
  | nil => intro acc; rfl
  | cons r0 rest ih =>
    intro acc
    simp only [List.foldl_cons, List.filter_cons]
    rw [ih]
    by_cases hk : decodeBoxKey r0.1 = k
    · rw [if_pos (by simp [hk])]
      rcases hfil : rest.filter (fun r => decide (decodeBoxKey r.1 = k)) with _ | ⟨a, l⟩
      · rw [hfil, List.getLast?_nil, List.getLast?_singleton,
          lookupOwner_insertReplace, if_pos hk.symm]
      · rw [hfil, List.getLast?_cons_cons]
        rcases hl : (a :: l).getLast? with _ | r1
        · exact absurd (List.getLast?_eq_none_iff.mp hl) (List.cons_ne_nil a l)
        · rfl
    · rw [if_neg (by simp [hk])]
      rcases hlast : (rest.filter (fun r => decide (decodeBoxKey r.1 = k))).getLast? with _ | r1
      · rw [hlast]
        exact lookupOwner_insertReplace _ _ _ acc |>.trans
          (if_neg (fun hh => hk hh.symm))
      · rw [hlast]

/-- `decodeRegistryRecords` is a total function; sequence order is the fold
order, and a later record with the same decoded key silently replaces the
owner stored by an earlier one. -/
theorem decodeRegistryRecords_lookup (digest : List Nat → List Nat)
    (records : List (List Char × List Nat)) (k : List Char) :
    lookupOwner (decodeRegistryRecords digest records) k
      = match (records.filter (fun r => decide (decodeBoxKey r.1 = k))).getLast? with
        | some r => some (encode_algorand_address digest r.2)
        | none => none :=
  decodeFold_lookup digest k records []

/-- C10: records are processed in sequence order by plain dict assignment: the
final owner for a key is the one of the *last* record decoding to that key,
the decoded mapping is strictly smaller than the input sequence whenever two
records share a decoded key, and decoding is total (never raises). -/
theorem duplicate_key_overwrite :
    (∀ (digest : List Nat → List Nat) records (k : List Char),
      lookupOwner (decodeRegistryRecords digest records) k
        = match (records.filter (fun r => decide (decodeBoxKey r.1 = k))).getLast? with
          | some r => some (encode_algorand_address digest r.2)
          | none => none)
    ∧ (∀ (digest : List Nat → List Nat) records,
        (decodeRegistryRecords digest records).length ≤ records.length)
    ∧ (∀ (digest : List Nat → List Nat) l1 r1 l2 r2 l3,
        decodeBoxKey r1.1 = decodeBoxKey r2.1 →
        (decodeRegistryRecords digest (l1 ++ (r1 :: (l2 ++ (r2 :: l3))))).length
          < (l1 ++ (r1 :: (l2 ++ (r2 :: l3)))).length) := by
  refine ⟨fun digest records k => decodeRegistryRecords_lookup digest records k, ?_, ?_⟩
  · intro digest records
    have h := decodeFold_length_le digest records []
    simpa [decodeRegistryRecords] using h
  · intro digest l1 r1 l2 r2 l3 hk
    rw [decodeRegistryRecords, List.foldl_append, List.foldl_cons]
    set acc0 := l1.foldl (fun reg r =>
      insertReplace (decodeBoxKey r.1) (encode_algorand_address digest r.2) reg) [] with hacc0
    set acc1 := insertReplace (decodeBoxKey r1.1) (encode_algorand_address digest r1.2) acc0
      with hacc1
    have hkey : decodeBoxKey r2.1 ∈ acc1.map Prod.fst := by
      rw [hacc1, ← hk, insertReplace_keys]
      by_cases hmem : decodeBoxKey r1.1 ∈ acc0.map Prod.fst
      · rw [if_pos hmem]; exact hmem
      · rw [if_neg hmem]
        exact List.mem_append_right _ (List.mem_singleton.mpr rfl)
    have hlt := decodeFold_length_lt digest (l2 ++ (r2 :: l3)) acc1
      ⟨r2, List.mem_append_right _ (List.mem_cons_self _ _), hkey⟩
    have hle0 : acc0.length ≤ l1.length := by
      have h := decodeFold_length_le digest l1 []
      simpa [hacc0] using h
    have hstep : acc1.length ≤ acc0.length + 1 := by
      rw [hacc1, insertReplace_length]
      by_cases hmem : decodeBoxKey r1.1 ∈ acc0.map Prod.fst
      · rw [if_pos hmem]; omega
      · rw [if_neg hmem]
    simp only [List.length_append, List.length_cons] at hlt ⊢
    omega

/-- A concrete raw record for the C10 witness. -/
def wRec : List Char × List Nat := (String.toList "a", [])

theorem duplicate_key_overwrite_witness :
    decodeBoxKey wRec.1 = decodeBoxKey wRec.1
    ∧ (decodeRegistryRecords (fun bs => bs) ([] ++ (wRec :: ([] ++ (wRec :: []))))).length
        < (([] : List (List Char × List Nat)) ++ (wRec :: ([] ++ (wRec :: [])))).length :=
  ⟨rfl, duplicate_key_overwrite.2.2 (fun bs => bs) [] wRec [] wRec [] rfl⟩

/- ── FrequencyTransformer: `dctn_numpy` versus the orthonormal DCT-II ────── -/

/-- The mirrored vector `v` of `_dct1d`: `v[:N] = x`, `v[N:] = x[::-1]`, as a
function on indices `0..63` (`v[m] = x[m]` below 32, `x[63-m]` above). -/
def mirrorNat (x : Fin 32 → ℝ) (m : ℕ) : ℝ :=
  if h : m < 32 then x ⟨m, h⟩ else x ⟨63 - m, by omega⟩

/-- One coefficient of `np.fft.rfft(v)` for the length-64 mirrored input:
`V_k = Σ_n v_n · exp(−2πi·k·n/64)`. -/
noncomputable def rfftPoint (x : Fin 32 → ℝ) (k : Fin 32) : ℂ :=
  ∑ n ∈ Finset.range 64, (mirrorNat x n : ℂ)
    * Complex.exp (-(2 * (Real.pi : ℂ) * Complex.I * (k.val : ℂ) * (n : ℂ)) / 64)

/-- `_dct1d` of `dctn_numpy`: real part of the half-sample phase times the
rFFT coefficient, index 0 scaled by `1/sqrt(4N)`, the rest by `1/sqrt(2N)`. -/
noncomputable def dct1d (x : Fin 32 → ℝ) (k : Fin 32) : ℝ :=
  if k.val = 0 then
    (Complex.exp (-((Real.pi : ℂ) * Complex.I * (k.val : ℂ)) / (2 * 32)) * rfftPoint x k).re
      / Real.sqrt (4 * 32)
  else
    (Complex.exp (-((Real.pi : ℂ) * Complex.I * (k.val : ℂ)) / (2 * 32)) * rfftPoint x k).re
      / Real.sqrt (2 * 32)

/-- Modelled from the spec: the reference 1-D orthonormalized type-II DCT of
`scipy.fft.dct(..., norm="ortho")`, used by the other source revision:
`y_k = f(k) · 2 · Σ_n x_n cos(π·k·(2n+1)/(2N))` with `f(0) = sqrt(1/(4N))`
and `f(k) = sqrt(1/(2N))` otherwise. -/
noncomputable def dctOrtho (x : Fin 32 → ℝ) (k : Fin 32) : ℝ :=
  (if k.val = 0 then Real.sqrt (1 / (4 * 32)) else Real.sqrt (1 / (2 * 32))) * 2
    * ∑ n : Fin 32, x n * Real.cos (Real.pi * (k.val : ℝ) * (2 * (n.val : ℝ) + 1) / (2 * 32))

/-- `np.apply_along_axis(f, 1, A)`: apply a 1-D transform to every row. -/
def applyRows (f : (Fin 32 → ℝ) → Fin 32 → ℝ) (A : Fin 32 → Fin 32 → ℝ) :
    Fin 32 → Fin 32 → ℝ :=
  fun i k => f (A i) k

/-- `np.apply_along_axis(f, 0, A)`: apply a 1-D transform to every column. -/
def applyCols (f : (Fin 32 → ℝ) → Fin 32 → ℝ) (A : Fin 32 → Fin 32 → ℝ) :
    Fin 32 → Fin 32 → ℝ :=
  fun k j => f (fun i => A i j) k

/-- `dctn_numpy`: the 1-D FFT-based transform along every row, then along
every column of the result. -/
noncomputable def dctn_numpy (A : Fin 32 → Fin 32 → ℝ) : Fin 32 → Fin 32 → ℝ :=
  applyCols dct1d (applyRows dct1d A)

/-- Modelled from the spec: `scipy.fft.dctn(A, norm="ortho")`, the separable
2-D orthonormal DCT-II (1-D reference transform along rows, then columns). -/
noncomputable def dctnOrtho (A : Fin 32 → Fin 32 → ℝ) : Fin 32 → Fin 32 → ℝ :=
  applyCols dctOrtho (applyRows dctOrtho A)

theorem phase_mul_rfft (x : Fin 32 → ℝ) (k : Fin 32) :
    Complex.exp (-((Real.pi : ℂ) * Complex.I * (k.val : ℂ)) / (2 * 32)) * rfftPoint x k
      = ∑ n ∈ Finset.range 64, (mirrorNat x n : ℂ)
          * Complex.exp (-((Real.pi : ℂ) * Complex.I * (k.val : ℂ) * (2 * (n : ℂ) + 1)) / 64) := by
  rw [rfftPoint, Finset.mul_sum]
  refine Finset.sum_congr rfl ?_
  intro n _
  calc Complex.exp (-((Real.pi : ℂ) * Complex.I * (k.val : ℂ)) / (2 * 32))
        * ((mirrorNat x n : ℂ)
            * Complex.exp (-(2 * (Real.pi : ℂ) * Complex.I * (k.val : ℂ) * (n : ℂ)) / 64))
      = (mirrorNat x n : ℂ)
          * (Complex.exp (-((Real.pi : ℂ) * Complex.I * (k.val : ℂ)) / (2 * 32))
            * Complex.exp (-(2 * (Real.pi : ℂ) * Complex.I * (k.val : ℂ) * (n : ℂ)) / 64)) := by
        ring_nf
    _ = (mirrorNat x n : ℂ)
          * Complex.exp (-((Real.pi : ℂ) * Complex.I * (k.val : ℂ)) / (2 * 32)
              + -(2 * (Real.pi : ℂ) * Complex.I * (k.val : ℂ) * (n : ℂ)) / 64) := by
        rw [Complex.exp_add]
    _ = (mirrorNat x n : ℂ)
          * Complex.exp (-((Real.pi : ℂ) * Complex.I * (k.val : ℂ) * (2 * (n : ℂ) + 1)) / 64) := by
        congr 1
        ring_nf

theorem sum64_split (f : ℕ → ℂ) :
    ∑ n ∈ Finset.range 64, f n
      = ∑ n ∈ Finset.range 32, f n + ∑ n ∈ Finset.range 32, f (32 + n) := by
  have h := Finset.sum_Ico_consecutive f (by norm_num : (0 : ℕ) ≤ 32) (by norm_num : (32 : ℕ) ≤ 64)
  rw [← Finset.range_eq_Ico, Finset.sum_Ico_eq_sum_range] at h
  norm_num at h
  exact h.symm

theorem exp_mul_I_add_exp_neg_mul_I (z : ℂ) :
    Complex.exp (z * Complex.I) + Complex.exp (-z * Complex.I) = 2 * Complex.cos z := by
  rw [Complex.cos]
  ring_nf

theorem high_half (x : Fin 32 → ℝ) (k : Fin 32) :
    ∑ n ∈ Finset.range 32, (mirrorNat x (32 + n) : ℂ)
        * Complex.exp (-((Real.pi : ℂ) * Complex.I * (k.val : ℂ)
            * (2 * ((32 + n : ℕ) : ℂ) + 1)) / 64)
      = ∑ n ∈ Finset.range 32, (mirrorNat x n : ℂ)
          * Complex.exp (((Real.pi : ℂ) * Complex.I * (k.val : ℂ) * (2 * (n : ℂ) + 1)) / 64) := by
  rw [← Finset.sum_range_reflect (fun n => (mirrorNat x n : ℂ)
      * Complex.exp (((Real.pi : ℂ) * Complex.I * (k.val : ℂ) * (2 * (n : ℂ) + 1)) / 64)) 32]
  refine Finset.sum_congr rfl ?_
  intro j hj
  have hj32 : j < 32 := Finset.mem_range.mp hj
  have hv : mirrorNat x (32 + j) = mirrorNat x (32 - 1 - j) := by
    rw [mirrorNat, mirrorNat, dif_neg (by omega), dif_pos (by omega)]
    congr 1
    exact Fin.ext (by simp only; omega)
  rw [hv]
  congr 1
  have hcastm : ((32 - 1 - j : ℕ) : ℂ) = 31 - (j : ℂ) := by
    have h1 : (32 - 1 - j : ℕ) = 31 - j := by omega
    rw [h1, Nat.cast_sub (by omega : j ≤ 31)]
    norm_num
  have hcastp : ((32 + j : ℕ) : ℂ) = 32 + (j : ℂ) := by push_cast; ring
  rw [hcastm, hcastp]
  have hone : Complex.exp (((-(k.val : ℤ) : ℤ) : ℂ) * (2 * (Real.pi : ℂ) * Complex.I)) = 1 :=
    Complex.exp_int_mul_two_pi_mul_I (-(k.val : ℤ))
  have harg : -((Real.pi : ℂ) * Complex.I * (k.val : ℂ) * (2 * (32 + (j : ℂ)) + 1)) / 64
      = ((Real.pi : ℂ) * Complex.I * (k.val : ℂ) * (2 * (31 - (j : ℂ)) + 1)) / 64
        + ((-(k.val : ℤ) : ℤ) : ℂ) * (2 * (Real.pi : ℂ) * Complex.I) := by
    push_cast
    ring
  rw [harg, Complex.exp_add, hone, mul_one]

theorem phase_rfft_re (x : Fin 32 → ℝ) (k : Fin 32) :
    (Complex.exp (-((Real.pi : ℂ) * Complex.I * (k.val : ℂ)) / (2 * 32)) * rfftPoint x k).re
      = 2 * ∑ n ∈ Finset.range 32,
          mirrorNat x n * Real.cos (Real.pi * (k.val : ℝ) * (2 * (n : ℝ) + 1) / 64) := by
  rw [phase_mul_rfft,
    sum64_split (fun n => (mirrorNat x n : ℂ)
      * Complex.exp (-((Real.pi : ℂ) * Complex.I * (k.val : ℂ) * (2 * (n : ℂ) + 1)) / 64)),
    high_half, ← Finset.sum_add_distrib]
  have hterm : ∀ n ∈ Finset.range 32,
      (mirrorNat x n : ℂ)
          * Complex.exp (-((Real.pi : ℂ) * Complex.I * (k.val : ℂ) * (2 * (n : ℂ) + 1)) / 64)
        + (mirrorNat x n : ℂ)
          * Complex.exp (((Real.pi : ℂ) * Complex.I * (k.val : ℂ) * (2 * (n : ℂ) + 1)) / 64)
      = ((mirrorNat x n * (2 * Real.cos (Real.pi * (k.val : ℝ) * (2 * (n : ℝ) + 1) / 64)) : ℝ)
          : ℂ) := by
    intro n _
    have hE1 : ((Real.pi : ℂ) * Complex.I * (k.val : ℂ) * (2 * (n : ℂ) + 1)) / 64
        = ((Real.pi * (k.val : ℝ) * (2 * (n : ℝ) + 1) / 64 : ℝ) : ℂ) * Complex.I := by
      push_cast
      ring
    have hE2 : -((Real.pi : ℂ) * Complex.I * (k.val : ℂ) * (2 * (n : ℂ) + 1)) / 64
        = -((Real.pi * (k.val : ℝ) * (2 * (n : ℝ) + 1) / 64 : ℝ) : ℂ) * Complex.I := by
      push_cast
      ring
    rw [hE1, hE2, mul_comm ((mirrorNat x n : ℝ) : ℂ)
        (Complex.exp (-((Real.pi * (k.val : ℝ) * (2 * (n : ℝ) + 1) / 64 : ℝ) : ℂ) * Complex.I)),
      mul_comm ((mirrorNat x n : ℝ) : ℂ)
        (Complex.exp (((Real.pi * (k.val : ℝ) * (2 * (n : ℝ) + 1) / 64 : ℝ) : ℂ) * Complex.I)),
      ← add_mul, add_comm, exp_mul_I_add_exp_neg_mul_I, ← Complex.ofReal_cos]
    push_cast
    ring
  rw [Finset.sum_congr rfl hterm, ← Complex.ofReal_sum, Complex.ofReal_re, Finset.mul_sum]
  refine Finset.sum_congr rfl ?_
  intro n _
  ring

theorem dct1d_eq_dctOrtho (x : Fin 32 → ℝ) (k : Fin 32) : dct1d x k = dctOrtho x k := by
  have hsum : ∑ n : Fin 32,
      x n * Real.cos (Real.pi * (k.val : ℝ) * (2 * (n.val : ℝ) + 1) / (2 * 32))
      = ∑ n ∈ Finset.range 32,
          mirrorNat x n * Real.cos (Real.pi * (k.val : ℝ) * (2 * (n : ℝ) + 1) / 64) := by
    rw [← Fin.sum_univ_eq_sum_range (fun n => mirrorNat x n
        * Real.cos (Real.pi * (k.val : ℝ) * (2 * (n : ℝ) + 1) / 64)) 32]
    refine Finset.sum_congr rfl ?_
    intro n _
    have hm : mirrorNat x n.val = x n := by
      rw [mirrorNat, dif_pos n.isLt]
    rw [hm]
    norm_num
  rw [dct1d, dctOrtho]
  by_cases hk : k.val = 0
  · rw [if_pos hk, if_pos hk, phase_rfft_re, hsum, one_div, Real.sqrt_inv, div_eq_mul_inv]
    ring
  · rw [if_neg hk, if_neg hk, phase_rfft_re, hsum, one_div, Real.sqrt_inv, div_eq_mul_inv]
    ring

/-- The matrix of the reference 1-D transform: `dctOrtho` is multiplication by
these cosine coefficients. -/
noncomputable def dctCoef (k n : Fin 32) : ℝ :=
  (if k.val = 0 then Real.sqrt (1 / (4 * 32)) else Real.sqrt (1 / (2 * 32))) * 2
    * Real.cos (Real.pi * (k.val : ℝ) * (2 * (n.val : ℝ) + 1) / (2 * 32))

theorem dctOrtho_linear (x : Fin 32 → ℝ) (k : Fin 32) :
    dctOrtho x k = ∑ n : Fin 32, dctCoef k n * x n := by
  rw [dctOrtho, Finset.mul_sum]
  refine Finset.sum_congr rfl ?_
  intro n _
  rw [dctCoef]
  ring

theorem dctnOrtho_expand (A : Fin 32 → Fin 32 → ℝ) (k j : Fin 32) :
    dctnOrtho A k j = ∑ m : Fin 32, ∑ n : Fin 32, dctCoef k m * (dctCoef j n * A m n) := by
  simp only [dctnOrtho, applyCols, applyRows]
  rw [dctOrtho_linear]
  refine Finset.sum_congr rfl ?_
  intro m _
  rw [dctOrtho_linear, Finset.mul_sum]

theorem colsFirst_expand (A : Fin 32 → Fin 32 → ℝ) (k j : Fin 32) :
    applyRows dctOrtho (applyCols dctOrtho A) k j
      = ∑ n : Fin 32, ∑ m : Fin 32, dctCoef j n * (dctCoef k m * A m n) := by
  simp only [applyRows, applyCols]
  rw [dctOrtho_linear]
  refine Finset.sum_congr rfl ?_
  intro n _
  simp only [applyCols]
  rw [dctOrtho_linear, Finset.mul_sum]

/-- C3: the FFT-based `dctn_numpy` (mirror to length 2N, real FFT, half-sample
phase, orthonormal scaling, rows then columns) computes exactly the separable
2-D orthonormalized type-II DCT — the `scipy.fft.dctn(..., norm="ortho")`
reference of the other revision — both for the 1-D transform pointwise and in
2-D, and applying the reference transform rows-first or columns-first gives
the same matrix. -/
theorem dctn_numpy_eq_ortho :
    (∀ (x : Fin 32 → ℝ) (k : Fin 32), dct1d x k = dctOrtho x k)
    ∧ (∀ A : Fin 32 → Fin 32 → ℝ, dctn_numpy A = dctnOrtho A)
    ∧ (∀ A : Fin 32 → Fin 32 → ℝ,
        applyCols dctOrtho (applyRows dctOrtho A)
          = applyRows dctOrtho (applyCols dctOrtho A)) := by
  refine ⟨dct1d_eq_dctOrtho, ?_, ?_⟩
  · intro A
    have hf : dct1d = dctOrtho := funext fun x => funext fun k => dct1d_eq_dctOrtho x k
    rw [dctn_numpy, dctnOrtho, hf]
  · intro A
    funext k j
    rw [show applyCols dctOrtho (applyRows dctOrtho A) k j = dctnOrtho A k j from rfl,
      dctnOrtho_expand, colsFirst_expand, Finset.sum_comm]
    refine Finset.sum_congr rfl fun n _ => Finset.sum_congr rfl fun m _ => by ring

end Veritas
